import Mathlib

/-!
# Verification of the ai-assistant-package core

Shallow embedding of the correctness-relevant core of the embeddable chat
widget: the HTML sanitizer (`Chat.sanitizeHtml` / `Chat.cleanElement`), the
text escaper and formatter (`Chat.sanitizeText` / `Chat.formatText`), the
context deduplicator and send path (`sendMessageToApi`), the session
resolver (`initConversationAndMountChat`), and the message append logic
(`Chat.addMessage`, `Chat.sendMessage`), together with theorems settling
the specification claims about them.
-/

namespace AIAssistant

/-! ## HTML node model

The DOM fragment built by `sanitizeHtml` is modelled as a forest of nodes:
text nodes and element nodes carrying a (lower-cased) tag name, an
attribute list, and child nodes.  `element.children` in the code iterates
element children only; text children are left in place, which the model
mirrors by passing text nodes through untouched. -/

inductive HtmlNode where
  | text : String → HtmlNode
  | elem : String → List (String × String) → List HtmlNode → HtmlNode
deriving Repr

/-- The tag allow-list from `Chat.sanitizeHtml`. -/
def allowedTags : List String := ["img", "br", "p", "strong", "em", "b", "i"]

/-- The per-tag attribute allow-list from `Chat.sanitizeHtml`; the code
looks attributes up with `allowedAttributes[tagName] || []`, so unknown
tags default to the empty list. -/
def allowedAttributes : String → List String
  | "img" => ["src", "alt", "style", "width", "height"]
  | "p" => ["style"]
  | _ => []

/-- `Chat.cleanElement`: for each element child, if its tag is not in the
allow-list the child is removed (with its whole subtree); otherwise its
disallowed attributes are stripped and its children are cleaned
recursively.  Text nodes are not element children and are untouched. -/
def cleanNodes (tags : List String) (attrs : String → List String) :
    List HtmlNode → List HtmlNode
  | [] => []
  | HtmlNode.text s :: rest => HtmlNode.text s :: cleanNodes tags attrs rest
  | HtmlNode.elem t a c :: rest =>
      if tags.contains t then
        HtmlNode.elem t (a.filter fun p => (attrs t).contains p.1)
            (cleanNodes tags attrs c) :: cleanNodes tags attrs rest
      else
        cleanNodes tags attrs rest

/-- `Chat.sanitizeHtml`: clean the parsed fragment with the concrete
allow-lists. -/
def sanitizeHtml (nodes : List HtmlNode) : List HtmlNode :=
  cleanNodes allowedTags allowedAttributes nodes

mutual

/-- A node is safe when every element in it (at any depth) has an allowed
tag and only allowed attributes for that tag. -/
def safeNode (tags : List String) (attrs : String → List String) :
    HtmlNode → Bool
  | HtmlNode.text _ => true
  | HtmlNode.elem t a c =>
      tags.contains t && a.all (fun p => (attrs t).contains p.1) &&
        safeNodes tags attrs c

/-- All nodes of a forest are safe. -/
def safeNodes (tags : List String) (attrs : String → List String) :
    List HtmlNode → Bool
  | [] => true
  | n :: rest => safeNode tags attrs n && safeNodes tags attrs rest

end

theorem cleanNodes_safe (tags : List String) (attrs : String → List String) :
    ∀ nodes, safeNodes tags attrs (cleanNodes tags attrs nodes) = true := by
  intro nodes
  induction nodes using cleanNodes.induct tags attrs with
  | case1 => simp [cleanNodes, safeNodes]
  | case2 s rest ih => simp [cleanNodes, safeNodes, safeNode, ih]
  | case3 t a c rest ht ihc ihrest =>
      have ht' : t ∈ tags := by simpa using ht
      simp [cleanNodes, ht', ht, safeNodes, safeNode, ihc, ihrest,
        List.all_eq_true, List.mem_filter]
  | case4 t a c rest ht ihrest =>
      have ht' : t ∉ tags := by simpa using ht
      simp [cleanNodes, ht', ihrest]

/-- **C1** For every parsed HTML fragment, the sanitization path
(`sanitizeHtml` via recursive `cleanElement`) produces a forest in which
every element, at any nesting depth, has a tag in the allow-list
{img, br, p, strong, em, b, i} and carries only attributes in its per-tag
allow-list (img: src, alt, style, width, height; p: style; others none). -/
theorem sanitizeHtml_safe (nodes : List HtmlNode) :
    safeNodes allowedTags allowedAttributes (sanitizeHtml nodes) = true :=
  cleanNodes_safe allowedTags allowedAttributes nodes

/-- **C6 counterexample** The claim says the allowed children of a removed
element are preserved (recursion before removal).  In the code a disallowed
element is removed via `element.removeChild(child)` together with its whole
subtree: sanitizing `<div><p>x</p></div>` yields the empty forest even
though `p` is an allowed tag and `div` is not — the allowed child `<p>` is
not preserved. -/
theorem cleanElement_drops_allowed_children_of_removed :
    sanitizeHtml [HtmlNode.elem "div" []
        [HtmlNode.elem "p" [] [HtmlNode.text "x"]]] = [] ∧
      allowedTags.contains "div" = false ∧
      allowedTags.contains "p" = true := by
  refine ⟨?_, by decide, by decide⟩
  simp [sanitizeHtml, cleanNodes]
  decide

/-- **C6 (amended)** `cleanElement` decides removal before recursing: a
child whose tag is disallowed is removed together with its entire subtree
(its allowed children are not preserved), and recursion descends only into
retained children, whose disallowed attributes are stripped. -/
theorem cleanElement_removal_before_recursion
    (tags : List String) (attrs : String → List String) (t : String)
    (a : List (String × String)) (c rest : List HtmlNode) :
    (tags.contains t = false →
      cleanNodes tags attrs (HtmlNode.elem t a c :: rest) =
        cleanNodes tags attrs rest) ∧
    (tags.contains t = true →
      cleanNodes tags attrs (HtmlNode.elem t a c :: rest) =
        HtmlNode.elem t (a.filter fun p => (attrs t).contains p.1)
            (cleanNodes tags attrs c) :: cleanNodes tags attrs rest) := by
  constructor <;> intro ht <;> simp [cleanNodes, ht] <;> simpa using ht

/-- Witness for `cleanElement_removal_before_recursion` at a concrete
input: `div` is removed with its subtree, `p` is retained. -/
theorem cleanElement_removal_before_recursion_witness :
    cleanNodes allowedTags allowedAttributes
        [HtmlNode.elem "div" [] [HtmlNode.elem "p" [] [HtmlNode.text "x"]]] =
      cleanNodes allowedTags allowedAttributes [] ∧
    cleanNodes allowedTags allowedAttributes
        [HtmlNode.elem "p" [("style", "s"), ("onclick", "evil()")]
          [HtmlNode.text "x"]] =
      [HtmlNode.elem "p"
        ([("style", "s"), ("onclick", "evil()")].filter fun p =>
          (allowedAttributes "p").contains p.1)
        (cleanNodes allowedTags allowedAttributes [HtmlNode.text "x"])] := by
  constructor
  · exact (cleanElement_removal_before_recursion allowedTags allowedAttributes
      "div" [] [HtmlNode.elem "p" [] [HtmlNode.text "x"]] []).1 (by decide)
  · have h := (cleanElement_removal_before_recursion allowedTags
      allowedAttributes "p" [("style", "s"), ("onclick", "evil()")]
      [HtmlNode.text "x"] []).2 (by decide)
    rw [h]
    simp [cleanNodes]

/-! ## String utilities

The JavaScript string operations used by the send path and the formatter,
modelled on `List Char`.  `isJsWhitespace` models the core (ASCII) part of
the regex class `\s` used by `String.prototype.trim`, `/\s+/` and `/\s*/`. -/

def isJsWhitespace (c : Char) : Bool :=
  c = ' ' || c = '\t' || c = '\n' || c = '\r' || c = '\x0b' || c = '\x0c'

theorem dropWhile_length_le {α : Type} (p : α → Bool) (l : List α) :
    (l.dropWhile p).length ≤ l.length := by
  induction l with
  | nil => simp
  | cons c cs ih =>
      rw [List.dropWhile_cons]
      split
      · exact Nat.le_succ_of_le ih
      · simp

/-- Drop `p` as a prefix of `l`, or fail. -/
def dropPrefixChars : List Char → List Char → Option (List Char)
  | [], l => some l
  | _ :: _, [] => none
  | p :: ps, c :: cs => if c = p then dropPrefixChars ps cs else none

theorem dropPrefixChars_length {p l r : List Char}
    (h : dropPrefixChars p l = some r) : r.length + p.length = l.length := by
  induction p generalizing l with
  | nil => simp [dropPrefixChars] at h; simp [h]
  | cons x xs ih =>
      cases l with
      | nil => simp [dropPrefixChars] at h
      | cons c cs =>
          simp only [dropPrefixChars] at h
          split at h
          · have := ih h
            simp only [List.length_cons]
            omega
          · exact absurd h (by simp)

/-- `String.prototype.trim`: strip whitespace from both ends. -/
def trimChars (l : List Char) : List Char :=
  ((l.dropWhile isJsWhitespace).reverse.dropWhile isJsWhitespace).reverse

/-- JS `text.trim()` on strings. -/
def jsTrim (s : String) : String :=
  ⟨trimChars s.toList⟩

/-- `/\s+/g → " "`: collapse every maximal whitespace run to one space.
The boolean records whether the previous character was part of a run. -/
def collapseWs : Bool → List Char → List Char
  | _, [] => []
  | prevWs, c :: rest =>
      if isJsWhitespace c then
        if prevWs then collapseWs true rest
        else ' ' :: collapseWs true rest
      else c :: collapseWs false rest

/-- The context normalization from `sendMessageToApi` /
`sendFormDataToApi`: `context.replace(/\s+/g, " ").trim().substring(0, 8000)`. -/
def normalizeContext (context : String) : String :=
  ⟨(trimChars (collapseWs false context.toList)).take 8000⟩

/-! ## Sanitizer/formatter for plain text

`Chat.sanitizeText` escapes markup-significant characters by assigning
`textContent` and reading back `innerHTML`; `Chat.formatText` then applies
three regex passes: URL linkification, `**bold**` spans, and `- ` list
items wrapped in `<ul>`. -/

/-- The escaping performed by `div.textContent = text; div.innerHTML`:
`&`, `<`, `>` become entities, everything else is unchanged. -/
def escapeHtmlChar (c : Char) : List Char :=
  if c = '&' then "&amp;".toList
  else if c = '<' then "&lt;".toList
  else if c = '>' then "&gt;".toList
  else [c]

/-- `Chat.sanitizeText`. -/
def sanitizeText (s : String) : String :=
  ⟨(s.toList.map escapeHtmlChar).flatten⟩

/-- Split off the URL scheme matched by `https?:\/\/` at the head of `l`. -/
def splitScheme (l : List Char) : Option (List Char × List Char) :=
  match dropPrefixChars "https://".toList l with
  | some r => some ("https://".toList, r)
  | none =>
    match dropPrefixChars "http://".toList l with
    | some r => some ("http://".toList, r)
    | none => none

theorem splitScheme_length {l s r : List Char} (h : splitScheme l = some (s, r)) :
    r.length + 7 ≤ l.length := by
  unfold splitScheme at h
  cases h8 : dropPrefixChars "https://".toList l with
  | some r8 =>
      rw [h8] at h
      simp only [Option.some.injEq, Prod.mk.injEq] at h
      obtain ⟨hs, hr⟩ := h
      subst hr
      have hlen := dropPrefixChars_length h8
      have h8l : ("https://".toList : List Char).length = 8 := by decide
      rw [h8l] at hlen
      omega
  | none =>
      rw [h8] at h
      cases h7 : dropPrefixChars "http://".toList l with
      | some r7 =>
          rw [h7] at h
          simp only [Option.some.injEq, Prod.mk.injEq] at h
          obtain ⟨hs, hr⟩ := h
          subst hr
          have hlen := dropPrefixChars_length h7
          have h7l : ("http://".toList : List Char).length = 7 := by decide
          rw [h7l] at hlen
          omega
      | none => rw [h7] at h; simp at h

def anchorPre : List Char := "<a href=\"".toList
def anchorMid : List Char := "\" target=\"_blank\" rel=\"noopener noreferrer\">".toList
def anchorPost : List Char := "</a>".toList

/-- The full anchor emitted for a URL token by the linkification pass. -/
def anchorFor (url : List Char) : List Char :=
  anchorPre ++ url ++ anchorMid ++ url ++ anchorPost

/-- `text.replace(/(https?:\/\/[^\s]+)/g, '<a href="$1" target="_blank"
rel="noopener noreferrer">$1</a>')`: scan left to right; at each position a
URL token is a scheme followed by at least one non-whitespace character;
the replacement text is not rescanned. -/
def linkify : List Char → List Char
  | [] => []
  | c :: rest =>
      match hs : splitScheme (c :: rest) with
      | some (scheme, afterScheme) =>
          let body := afterScheme.takeWhile (fun x => !isJsWhitespace x)
          if body = [] then c :: linkify rest
          else
            anchorFor (scheme ++ body) ++
              linkify (afterScheme.dropWhile (fun x => !isJsWhitespace x))
      | none => c :: linkify rest
termination_by l => l.length
decreasing_by
  · simp
  · have h1 := splitScheme_length hs
    have h2 := dropWhile_length_le (fun x => !isJsWhitespace x) afterScheme
    simp only [List.length_cons] at h1 ⊢
    omega
  · simp

/-- Earliest occurrence of `**` in `l`: the content before it and the
remainder after it. -/
def findStarStar : List Char → Option (List Char × List Char)
  | [] => none
  | [_] => none
  | c :: c2 :: rest =>
      if c = '*' && c2 = '*' then some ([], rest)
      else (findStarStar (c2 :: rest)).map fun pr => (c :: pr.1, pr.2)

theorem findStarStar_length {l pre post : List Char}
    (h : findStarStar l = some (pre, post)) :
    pre.length + 2 + post.length = l.length := by
  induction l generalizing pre post with
  | nil => simp [findStarStar] at h
  | cons c tail ih =>
      cases tail with
      | nil => simp [findStarStar] at h
      | cons c2 rest =>
          rw [findStarStar] at h
          split at h
          · simp only [Option.some.injEq, Prod.mk.injEq] at h
            obtain ⟨hpre, hpost⟩ := h
            subst hpre; subst hpost
            simp
            omega
          · simp only [Option.map_eq_some'] at h
            obtain ⟨⟨p1, p2⟩, hpr, heq⟩ := h
            simp only [Prod.mk.injEq] at heq
            obtain ⟨hpre, hpost⟩ := heq
            subst hpre; subst hpost
            have hlen := ih hpr
            simp only [List.length_cons] at *
            omega

def spanPre : List Char := "<span class=\"ia-title\">".toList
def spanPost : List Char := "</span>".toList

/-- `formatted.replace(/\*\*(.*?)\*\*/g, '<span class="ia-title">$1</span>')`:
without the `s` flag the lazy content cannot cross a newline, so a `**`
opens a span only when the earliest following `**` has no newline before
it. -/
def boldify : List Char → List Char
  | [] => []
  | [c] => [c]
  | c :: c2 :: rest =>
      if c = '*' && c2 = '*' then
        match hf : findStarStar rest with
        | some (content, afterClose) =>
            if content.contains '\n' then c :: boldify (c2 :: rest)
            else spanPre ++ content ++ spanPost ++ boldify afterClose
        | none => c :: boldify (c2 :: rest)
      else c :: boldify (c2 :: rest)
termination_by l => l.length
decreasing_by
  · simp
  · have := findStarStar_length hf
    simp only [List.length_cons] at *
    omega
  · simp
  · simp

/-- After `(^|\n)-` the regex `-\s+(.*?)(?=\n|$)` needs at least one
whitespace character (greedy, may cross newlines) and captures the rest of
the line (dot does not match newline; the lookahead leaves the newline
unconsumed).  Returns the captured content and the remainder. -/
def liMatchAfterDash (l : List Char) : Option (List Char × List Char) :=
  match l with
  | [] => none
  | c :: rest =>
      if isJsWhitespace c then
        let afterWs := rest.dropWhile isJsWhitespace
        some (afterWs.takeWhile (fun x => x ≠ '\n'),
          afterWs.dropWhile (fun x => x ≠ '\n'))
      else none

theorem liMatchAfterDash_length {l content remainder : List Char}
    (h : liMatchAfterDash l = some (content, remainder)) :
    remainder.length < l.length := by
  cases l with
  | nil => simp [liMatchAfterDash] at h
  | cons c rest =>
      rw [liMatchAfterDash] at h
      split at h
      · simp only [Option.some.injEq, Prod.mk.injEq] at h
        obtain ⟨h1, h2⟩ := h
        subst h2
        have ha := dropWhile_length_le isJsWhitespace rest
        have hb := dropWhile_length_le (fun x => x ≠ '\n')
          (rest.dropWhile isJsWhitespace)
        simp only [List.length_cons]
        omega
      · exact absurd h (by simp)

def liOpen : List Char := "<li>".toList
def liClose : List Char := "</li>".toList

/-- `formatted.replace(/(^|\n)-\s+(.*?)(?=\n|$)/g, p1 + "<li>" + p2 +
"</li>")`: the flag records whether the scanner is still at the very start
of the string (where `^` can match); later matches are triggered by a
newline, which stays in the output as `$1`. -/
def listItems : Bool → List Char → List Char
  | _, [] => []
  | first, c :: rest =>
      if first && c = '-' then
        match hd : liMatchAfterDash rest with
        | some (content, remainder) =>
            liOpen ++ content ++ liClose ++ listItems false remainder
        | none => c :: listItems false rest
      else if c = '\n' then
        match hrest : rest with
        | '-' :: afterDash =>
            match hd : liMatchAfterDash afterDash with
            | some (content, remainder) =>
                c :: (liOpen ++ content ++ liClose ++ listItems false remainder)
            | none => c :: listItems false rest
        | _ => c :: listItems false rest
      else c :: listItems false rest
termination_by _ l => l.length
decreasing_by
  · have := liMatchAfterDash_length hd
    simp only [List.length_cons]
    omega
  · simp
  · have := liMatchAfterDash_length hd
    subst hrest
    simp only [List.length_cons] at *
    omega
  · subst hrest; simp
  · subst hrest; simp
  · simp

/-- Earliest occurrence of `</li>` in `l`: content before it and remainder
after it. -/
def splitAtLiClose : List Char → Option (List Char × List Char)
  | [] => none
  | c :: rest =>
      match dropPrefixChars "</li>".toList (c :: rest) with
      | some after => some ([], after)
      | none => (splitAtLiClose rest).map fun pr => (c :: pr.1, pr.2)

theorem splitAtLiClose_length {l pre post : List Char}
    (h : splitAtLiClose l = some (pre, post)) :
    pre.length + 5 + post.length = l.length := by
  induction l generalizing pre post with
  | nil => simp [splitAtLiClose] at h
  | cons c rest ih =>
      rw [splitAtLiClose] at h
      cases hp : dropPrefixChars "</li>".toList (c :: rest) with
      | some after =>
          rw [hp] at h
          simp only [Option.some.injEq, Prod.mk.injEq] at h
          obtain ⟨h1, h2⟩ := h
          subst h1; subst h2
          have := dropPrefixChars_length hp
          have h5 : ("</li>".toList : List Char).length = 5 := by decide
          rw [h5] at this
          simp only [List.length_nil, List.length_cons] at this ⊢
          omega
      | none =>
          rw [hp] at h
          simp only [Option.map_eq_some'] at h
          obtain ⟨⟨p1, p2⟩, hpr, heq⟩ := h
          simp only [Prod.mk.injEq] at heq
          obtain ⟨hpre, hpost⟩ := heq
          subst hpre; subst hpost
          have := ih hpr
          simp only [List.length_cons] at this ⊢
          omega

/-- One greedy run of `(<li>.*?<\/li>\s*)+` starting at the head of `l`
(the `s` flag lets the lazy content cross newlines): parses as many
`<li>…</li>` units (each with its trailing whitespace) as possible and
returns the matched text together with the remainder. -/
def liRun (l : List Char) : Option (List Char × List Char) :=
  match hopen : dropPrefixChars "<li>".toList l with
  | none => none
  | some afterOpen =>
    match hc : splitAtLiClose afterOpen with
    | none => none
    | some (content, afterClose) =>
        let ws := afterClose.takeWhile isJsWhitespace
        let afterWs := afterClose.dropWhile isJsWhitespace
        let unit := liOpen ++ content ++ liClose ++ ws
        match liRun afterWs with
        | some (more, rem) => some (unit ++ more, rem)
        | none => some (unit, afterWs)
termination_by l.length
decreasing_by
  have h1 := dropPrefixChars_length hopen
  have h4 : ("<li>".toList : List Char).length = 4 := by decide
  rw [h4] at h1
  have h2 := splitAtLiClose_length hc
  have h3 := dropWhile_length_le isJsWhitespace afterClose
  omega

/-- `match.replace(/\s*$/, "")`: strip trailing whitespace. -/
def stripTrailingWs (l : List Char) : List Char :=
  (l.reverse.dropWhile isJsWhitespace).reverse

/-- `formatted.replace(/(<li>.*?<\/li>\s*)+/gs, m => "<ul>" +
m.replace(/\s*$/, "") + "</ul>")`: wrap each maximal run of list items in
a single `<ul>`, stripping the run's trailing whitespace.  The scan
advances at least one character per step, so the fuel (instantiated with
the input length plus one in `wrapLiRuns`) never runs out. -/
def wrapLiRunsF : Nat → List Char → List Char
  | 0, l => l
  | _ + 1, [] => []
  | fuel + 1, c :: rest =>
      match liRun (c :: rest) with
      | some (m, rem) =>
          "<ul>".toList ++ stripTrailingWs m ++ "</ul>".toList ++
            wrapLiRunsF fuel rem
      | none => c :: wrapLiRunsF fuel rest

def wrapLiRuns (l : List Char) : List Char :=
  wrapLiRunsF (l.length + 1) l

/-- `Chat.formatText`: linkify URLs, then bold spans, then list items,
then wrap list runs. -/
def formatText (s : String) : String :=
  ⟨wrapLiRuns (listItems true (boldify (linkify s.toList)))⟩

/-! ## Context deduplicator (`sendMessageToApi` / `sendFormDataToApi`)

Both send functions normalize the page context and compare it with the
module-level `lastContext` slot:
```
const contextToSend = normalizedContext === lastContext ? "" : normalizedContext;
if (contextToSend !== "") { lastContext = normalizedContext; }
```
The update happens before the network request is dispatched and is never
rolled back. -/

structure ContextPrep where
  contextToSend : String
  newLastContext : String
deriving Repr, DecidableEq

/-- The normalization-and-deduplication step of `sendMessageToApi`
(lines 314–324), with `newLastContext` the value of the `lastContext`
slot after the step. -/
def prepareContext (context lastContext : String) : ContextPrep :=
  let normalized := normalizeContext context
  let contextToSend := if normalized = lastContext then "" else normalized
  { contextToSend := contextToSend
    newLastContext := if contextToSend ≠ "" then normalized else lastContext }

/-- The deduplication step as claim C3 words it: on a hit `contextToSend`
is empty and the slot unchanged; otherwise `contextToSend` is the
normalized text and the slot is updated to it (unconditionally). -/
def prepareContextClaimed (context lastContext : String) : ContextPrep :=
  let normalized := normalizeContext context
  if normalized = lastContext then
    { contextToSend := "", newLastContext := lastContext }
  else
    { contextToSend := normalized, newLastContext := normalized }

/-- The messages returned by `POST /conversation/{id}/message`. -/
structure ApiMessage where
  sender : String
  content : String
  audio_url : Option String
deriving Repr, DecidableEq

/-- JS truthiness of an optional string (`null`/`undefined`/`""` are
falsy). -/
def jsTruthy : Option String → Bool
  | none => false
  | some s => s ≠ ""

/-- The reply branch taken by `sendMessageToApi`; the cosmetic
`processHtmlContent` string rewrite applied inside the `htmlProcessed`
branch is outside the modelled boundary. -/
inductive ApiReply where
  | noConversation          -- "No active conversation."
  | errorReply              -- catch: "Sorry, there was an error …"
  | noResponse              -- "No response from the assistant."
  | audioPayload (content audioUrl : String)  -- JSON.stringify branch
  | htmlProcessed (content : String)          -- processHtmlContent branch
deriving Repr, DecidableEq

structure SendOutcome where
  contextToSend : String
  newLastContext : String
  reply : ApiReply
deriving Repr, DecidableEq

/-- `sendMessageToApi`: guard on the active conversation, prepare the
context (mutating `lastContext` before the request), then dispatch; the
network outcome is the `result` parameter.  On success the reply is built
from the last `sender === "assistant"` entry (`data.reverse().find(...)`). -/
def sendMessageToApi (conversationId : Option String) (lastContext : String)
    (context : String) (audioAnswers : Bool)
    (result : Except String (List ApiMessage)) : SendOutcome :=
  match conversationId with
  | none => ⟨"", lastContext, ApiReply.noConversation⟩
  | some _ =>
    let prep := prepareContext context lastContext
    let reply :=
      match result with
      | Except.error _ => ApiReply.errorReply
      | Except.ok msgs =>
          match msgs.reverse.find? (fun m => m.sender = "assistant") with
          | none => ApiReply.noResponse
          | some m =>
              if audioAnswers && jsTruthy m.audio_url then
                ApiReply.audioPayload m.content (m.audio_url.getD "")
              else
                ApiReply.htmlProcessed m.content
    ⟨prep.contextToSend, prep.newLastContext, reply⟩

/-- **C3 counterexample** The claim says that whenever the normalized text
differs from `lastSentContext`, the slot is updated to the normalized
text.  With an empty normalized context and a non-empty slot the code
leaves the slot unchanged (`if (contextToSend !== "")` fails), while the
claim predicts it becomes `""`. -/
theorem prepareContext_empty_differs_from_claim :
    prepareContext "" "x" ≠ prepareContextClaimed "" "x" ∧
      normalizeContext "" ≠ "x" ∧
      prepareContext "" "x" = ⟨"", "x"⟩ ∧
      prepareContextClaimed "" "x" = ⟨"", ""⟩ := by
  refine ⟨by decide, by decide, by decide, by decide⟩

/-- **C3 (amended)** After normalization: a hit yields an empty
`contextToSend` with the slot unchanged; a miss with non-empty normalized
text sends the normalized text and updates the slot to it; a miss with
empty normalized text sends the empty string and leaves the slot
unchanged.  Consequently a second call with the same raw page text always
yields an empty `contextToSend`. -/
theorem prepareContext_dedup (context lastContext : String) :
    (normalizeContext context = lastContext →
      prepareContext context lastContext = ⟨"", lastContext⟩) ∧
    (normalizeContext context ≠ lastContext → normalizeContext context ≠ "" →
      prepareContext context lastContext =
        ⟨normalizeContext context, normalizeContext context⟩) ∧
    (normalizeContext context ≠ lastContext → normalizeContext context = "" →
      prepareContext context lastContext = ⟨"", lastContext⟩) ∧
    (prepareContext context
        (prepareContext context lastContext).newLastContext).contextToSend =
      "" := by
  refine ⟨?_, ?_, ?_, ?_⟩
  · intro h; simp [prepareContext, h]
  · intro h1 h2; simp [prepareContext, h1, h2]
  · intro h1 h2; simp [prepareContext, h1, h2]
  · by_cases h : normalizeContext context = lastContext
    · simp [prepareContext, h]
    · by_cases h2 : normalizeContext context = ""
      · simp [prepareContext, h, h2]
      · simp [prepareContext, h, h2]

/-- Witness for `prepareContext_dedup` at concrete inputs: a changed
context is sent and stored, and an immediate repeat is suppressed. -/
theorem prepareContext_dedup_witness :
    normalizeContext " a  b " ≠ "" ∧
      prepareContext " a  b " "" = ⟨"a b", "a b"⟩ ∧
      prepareContext " a  b " "a b" = ⟨"", "a b"⟩ := by
  refine ⟨by decide, ?_, ?_⟩
  · exact ((prepareContext_dedup " a  b " "").2.1 (by decide) (by decide)).trans
      (by decide)
  · exact ((prepareContext_dedup " a  b " "a b").1 (by decide))

/-- **C10** `lastContext` is updated before the request is dispatched and
is not rolled back on failure: a failed send that carried a new non-empty
context still updates the slot, and an immediately retried send with the
same page text carries an empty `contextToSend`, although the server never
received the context. -/
theorem lastContext_not_rolled_back_on_failure
    (convId : String) (lastContext context : String) (e : String)
    (audio : Bool) (retryResult : Except String (List ApiMessage))
    (h1 : normalizeContext context ≠ lastContext)
    (h2 : normalizeContext context ≠ "") :
    (sendMessageToApi (some convId) lastContext context audio
        (Except.error e)).reply = ApiReply.errorReply ∧
    (sendMessageToApi (some convId) lastContext context audio
        (Except.error e)).contextToSend = normalizeContext context ∧
    (sendMessageToApi (some convId) lastContext context audio
        (Except.error e)).newLastContext = normalizeContext context ∧
    (sendMessageToApi (some convId)
        (sendMessageToApi (some convId) lastContext context audio
          (Except.error e)).newLastContext
        context audio retryResult).contextToSend = "" := by
  have hp := (prepareContext_dedup context lastContext).2.1 h1 h2
  refine ⟨rfl, ?_, ?_, ?_⟩
  · simp [sendMessageToApi, hp]
  · simp [sendMessageToApi, hp]
  · show (prepareContext context
      ((prepareContext context lastContext).newLastContext)).contextToSend = ""
    exact (prepareContext_dedup context lastContext).2.2.2

/-- Witness for `lastContext_not_rolled_back_on_failure`: after a failed
send of context `" a  b "` over an empty slot, the slot holds `"a b"` and
the retry sends no context. -/
theorem lastContext_not_rolled_back_on_failure_witness :
    (sendMessageToApi (some "c1") "" " a  b " false
        (Except.error "network")).newLastContext = "a b" ∧
    (sendMessageToApi (some "c1") "a b" " a  b " false
        (Except.ok [])).contextToSend = "" := by
  have h := lastContext_not_rolled_back_on_failure "c1" "" " a  b "
    "network" false (Except.ok []) (by decide) (by decide)
  refine ⟨h.2.2.1.trans (by decide), ?_⟩
  have h4 := h.2.2.2
  rw [h.2.2.1] at h4
  exact h4

/-! ## Session resolver (`initConversationAndMountChat`)

`fetchAllConversations` catches its own errors and returns `[]`, so a
listing failure never reaches the resolver's `try`.  The resolver inspects
the first conversation: a match on the stored `ai-client-id` resumes it;
otherwise (mismatch, missing `client_id`, or empty list) it `POST`s a new
conversation, persisting the returned `client_id` only when truthy.  Any
error escaping the `try` (creation failure) produces the emergency chat
whose `onSend` always returns a fixed unavailability message. -/

structure ConvEntry where
  id : String
  client_id : Option String
deriving Repr, DecidableEq

structure CreateResp where
  id : String
  client_id : Option String
deriving Repr, DecidableEq

structure ResolveOk where
  conversationId : String
  storedAfter : Option String
  createCalls : Nat
  useExisting : Bool
deriving Repr, DecidableEq

/-- The outcome of `initConversationAndMountChat`: a mounted networked
chat, or the emergency (degraded) chat from the `catch` block. -/
inductive InitOutcome where
  | ok (r : ResolveOk)
  | degraded
deriving Repr, DecidableEq

/-- `fetchAllConversations`: errors are caught and yield `[]`. -/
def fetchAllConversations (listResult : Except String (List ConvEntry)) :
    List ConvEntry :=
  match listResult with
  | Except.error _ => []
  | Except.ok l => l

/-- The resume test `storedClientId && storedClientId === firstConv.client_id`
(JS `&&` makes an empty stored id falsy; `===` against a missing
`client_id` is false). -/
def resumeMatch (stored : Option String) (first : ConvEntry) : Bool :=
  match stored, first.client_id with
  | some s, some c => s ≠ "" && s = c
  | _, _ => false

/-- The creation branch: one `POST /conversation/`; on success the
returned `client_id` is persisted only if truthy
(`if (conversationClientId) localStorage.setItem(...)`); on failure the
`catch` block mounts the emergency chat. -/
def createBranch (stored : Option String)
    (createResult : Except String CreateResp) : InitOutcome :=
  match createResult with
  | Except.error _ => InitOutcome.degraded
  | Except.ok r =>
      InitOutcome.ok
        { conversationId := r.id
          storedAfter := if jsTruthy r.client_id then r.client_id else stored
          createCalls := 1
          useExisting := false }

/-- `initConversationAndMountChat`, as a function of the stored client id
and the outcomes of the listing and creation requests. -/
def initConversation (stored : Option String)
    (listResult : Except String (List ConvEntry))
    (createResult : Except String CreateResp) : InitOutcome :=
  match fetchAllConversations listResult with
  | [] => createBranch stored createResult
  | first :: _ =>
      if resumeMatch stored first then
        InitOutcome.ok
          { conversationId := first.id
            storedAfter := first.client_id
            createCalls := 0
            useExisting := true }
      else
        createBranch stored createResult

/-- The fixed reply of the degraded (emergency) chat's `onSend`. -/
def degradedReply : String :=
  "The assistant is not available at this time. Please try again later."

/-- The emergency chat returns the fixed unavailability message for every
input, with `isHtml = false`. -/
def degradedOnSend (_input : String) : String × Bool :=
  (degradedReply, false)

/-- **C4 counterexample** The claim says the created branch persists the
returned clientId.  When the server's creation response carries an empty
`client_id`, the code's truthiness guard skips `localStorage.setItem`, so
the previously stored id survives instead of the returned one. -/
theorem initConversation_created_empty_clientId_not_persisted :
    initConversation (some "A")
        (Except.ok [⟨"conv1", some "B"⟩])
        (Except.ok ⟨"conv2", some ""⟩) =
      InitOutcome.ok ⟨"conv2", some "A", 1, false⟩ ∧
      (some "A" : Option String) ≠ some "" := by
  exact ⟨by decide, by decide⟩

/-- **C4 (amended)** Session resolution: if the list is non-empty and its
first entry's `clientId` equals the stored one (stored non-empty), the
resolver resumes it, rewrites the persisted id and issues no creation
request; otherwise — mismatch, first entry without `clientId`, or empty
list — it issues exactly one creation request, and persists the returned
`clientId` exactly when that id is non-empty (an empty stored id is
treated as absent). -/
theorem initConversation_policy (stored : Option String)
    (entries : List ConvEntry) (created : CreateResp) :
    (∀ s first rest, stored = some s → s ≠ "" → entries = first :: rest →
      first.client_id = some s →
      initConversation stored (Except.ok entries) (Except.ok created) =
        InitOutcome.ok ⟨first.id, some s, 0, true⟩) ∧
    (∀ first rest, entries = first :: rest →
      resumeMatch stored first = false →
      initConversation stored (Except.ok entries) (Except.ok created) =
        InitOutcome.ok ⟨created.id,
          if jsTruthy created.client_id then created.client_id else stored,
          1, false⟩) ∧
    (entries = [] →
      initConversation stored (Except.ok entries) (Except.ok created) =
        InitOutcome.ok ⟨created.id,
          if jsTruthy created.client_id then created.client_id else stored,
          1, false⟩) := by
  refine ⟨?_, ?_, ?_⟩
  · intro s first rest hs hne hent hfirst
    subst hs; subst hent
    have hm : resumeMatch (some s) first = true := by
      simp [resumeMatch, hfirst, hne]
    simp [initConversation, fetchAllConversations, hm, hfirst]
  · intro first rest hent hm
    subst hent
    simp [initConversation, fetchAllConversations, hm, createBranch]
  · intro hent
    subst hent
    simp [initConversation, fetchAllConversations, createBranch]

/-- Witness for `initConversation_policy`: resume on a matching first
entry; create on a mismatching one, persisting the returned id. -/
theorem initConversation_policy_witness :
    initConversation (some "A") (Except.ok [⟨"conv1", some "A"⟩])
        (Except.ok ⟨"conv9", some "K"⟩) =
      InitOutcome.ok ⟨"conv1", some "A", 0, true⟩ ∧
    initConversation (some "A") (Except.ok [⟨"conv1", some "B"⟩])
        (Except.ok ⟨"conv9", some "K"⟩) =
      InitOutcome.ok ⟨"conv9", some "K", 1, false⟩ ∧
    initConversation none (Except.ok []) (Except.ok ⟨"conv9", some "K"⟩) =
      InitOutcome.ok ⟨"conv9", some "K", 1, false⟩ := by
  refine ⟨?_, ?_, ?_⟩
  · exact ((initConversation_policy (some "A") [⟨"conv1", some "A"⟩]
      ⟨"conv9", some "K"⟩).1 "A" ⟨"conv1", some "A"⟩ [] rfl (by decide) rfl
      rfl)
  · exact ((initConversation_policy (some "A") [⟨"conv1", some "B"⟩]
      ⟨"conv9", some "K"⟩).2.1 ⟨"conv1", some "B"⟩ [] rfl (by decide)).trans
      (by decide)
  · exact ((initConversation_policy none [] ⟨"conv9", some "K"⟩).2.2
      rfl).trans (by decide)

/-- **C5 counterexample** The claim says a listing failure makes
resolution fail with `SessionUnavailable` (degraded chat).  In the code
`fetchAllConversations` swallows its error and returns `[]`, so a listing
failure with a successful creation yields a normal, networked chat, not
the degraded one. -/
theorem initConversation_listing_failure_not_degraded :
    initConversation none (Except.error "network down")
        (Except.ok ⟨"conv1", some "K"⟩) =
      InitOutcome.ok ⟨"conv1", some "K", 1, false⟩ ∧
      InitOutcome.ok ⟨"conv1", some "K", 1, false⟩ ≠ InitOutcome.degraded := by
  exact ⟨by decide, by decide⟩

/-- **C5 (amended)** If the conversation-creation request fails during
session resolution (which is reached whenever no conversation is resumed —
in particular after a listing failure, which is swallowed into an empty
list), the controller falls back to the degraded, non-networked chat,
whose `onSend` accepts any input and always returns the fixed
unavailability message. -/
theorem initConversation_create_failure_degraded (stored : Option String)
    (listResult : Except String (List ConvEntry)) (e : String)
    (hnoresume : ∀ first rest, fetchAllConversations listResult = first :: rest →
      resumeMatch stored first = false) :
    initConversation stored listResult (Except.error e) =
      InitOutcome.degraded ∧
    ∀ input, degradedOnSend input = (degradedReply, false) := by
  constructor
  · unfold initConversation
    cases hl : fetchAllConversations listResult with
    | nil => simp [createBranch]
    | cons first rest =>
        have := hnoresume first rest hl
        simp [this, createBranch]
  · intro input
    rfl

/-- Witness for `initConversation_create_failure_degraded`: empty remote
list and failing creation request yield the degraded chat. -/
theorem initConversation_create_failure_degraded_witness :
    initConversation none (Except.ok []) (Except.error "500") =
      InitOutcome.degraded ∧
    degradedOnSend "hello" = (degradedReply, false) := by
  have h := initConversation_create_failure_degraded none (Except.ok [])
    "500" (by intro first rest h; simp [fetchAllConversations] at h)
  exact ⟨h.1, h.2 "hello"⟩

/-! ## Chat widget (`Chat.addMessage`, `Chat.sendMessage`, new conversation)

`Chat.addMessage` first handles audio mode: for assistant messages it
matches `/"audio_url"\s*:\s*"([^"]+)"/s` against the text, appends an
audio player on a match and silently returns (appending nothing)
otherwise.  `Chat.sendMessage` trims the input, bails out on empty text,
otherwise appends the user message, dispatches `onSend` and appends the
eventual response unconditionally.  The new-conversation callback replaces
`conversationId`, clears the history and resets `lastContext`. -/

/-- Try to match `"audio_url"\s*:\s*"([^"]+)"` at the head of `l`,
returning the captured URL. -/
def matchAudioAt (l : List Char) : Option (List Char) :=
  match dropPrefixChars "\"audio_url\"".toList l with
  | none => none
  | some l1 =>
      match (l1.dropWhile isJsWhitespace) with
      | ':' :: l2 =>
          match l2.dropWhile isJsWhitespace with
          | '"' :: l3 =>
              let body := l3.takeWhile (fun c => c ≠ '"')
              if body = [] then none
              else
                match l3.dropWhile (fun c => c ≠ '"') with
                | '"' :: _ => some body
                | _ => none
          | _ => none
      | _ => none

/-- First match of the audio-url pattern anywhere in `l`
(`String.prototype.match` scans left to right). -/
def findAudioUrl : List Char → Option (List Char)
  | [] => none
  | c :: rest =>
      match matchAudioAt (c :: rest) with
      | some u => some u
      | none => findAudioUrl rest

/-- The regex extraction in `Chat.addMessage`. -/
def extractAudioUrl (s : String) : Option String :=
  (findAudioUrl s.toList).map fun l => ⟨l⟩

inductive Sender where
  | user
  | assistant
  | error
deriving Repr, DecidableEq

/-- What a message element renders as once appended. -/
inductive Rendered where
  | audioPlayer (url : String)            -- audio container + player
  | sanitizedHtml (raw : String)          -- innerHTML := sanitizeHtml(raw)
  | formattedText (html : String)         -- innerHTML := formatText(sanitizeText(raw))
deriving Repr, DecidableEq

/-- `Chat.addMessage text sender isHtml` acting on the message list. -/
def addMessage (audioAnswers : Bool) (msgs : List (Sender × Rendered))
    (text : String) (sender : Sender) (isHtml : Bool) :
    List (Sender × Rendered) :=
  if audioAnswers && sender = Sender.assistant then
    match extractAudioUrl text with
    | some url => msgs ++ [(sender, Rendered.audioPlayer url)]
    | none => msgs
  else if isHtml && sender = Sender.assistant then
    msgs ++ [(sender, Rendered.sanitizedHtml text)]
  else
    msgs ++ [(sender, Rendered.formattedText (formatText (sanitizeText text)))]

/-- The observable widget state: the active conversation identity, the
rendered message list, the context slot, and the dispatched requests that
are still in flight (each stamped with the conversation id bound into its
URL at dispatch time). -/
structure WidgetState where
  conversationId : String
  messages : List (Sender × Rendered)
  lastContext : String
  inflight : List (String × String)
deriving Repr, DecidableEq

inductive WidgetEvent where
  /-- `Chat.sendMessage` up to the `await`: trim, reject empty, append the
  user message optimistically and dispatch the request. -/
  | submit (audioAnswers : Bool) (input : String)
  /-- The new-conversation callback: on a successful `POST` replace the
  conversation id, clear the history and reset `lastContext`; on failure
  do nothing. -/
  | newConversation (result : Option String)
  /-- The continuation of `Chat.sendMessage` after the `await`: the
  response for a pending request arrives and is appended via
  `addMessage(content, "assistant", isHtml)` — with no guard comparing the
  pending request's conversation id against the active one. -/
  | respond (audioAnswers : Bool) (pending : String × String)
      (content : String) (isHtml : Bool)
deriving Repr, DecidableEq

/-- One step of the widget, as the code behaves. -/
def stepWidget (st : WidgetState) : WidgetEvent → WidgetState
  | WidgetEvent.submit audioAnswers input =>
      let message := jsTrim input
      if message ≠ "" then
        { st with
          messages := addMessage audioAnswers st.messages message
            Sender.user false
          inflight := st.inflight ++ [(st.conversationId, message)] }
      else st
  | WidgetEvent.newConversation none => st
  | WidgetEvent.newConversation (some newId) =>
      { st with conversationId := newId, messages := [], lastContext := "" }
  | WidgetEvent.respond audioAnswers pending content isHtml =>
      { st with
        messages := addMessage audioAnswers st.messages content
          Sender.assistant isHtml
        inflight := st.inflight.erase pending }

/-- **C8** A submit whose trimmed text is empty appends no message, sends
no request and leaves the whole widget state unchanged. -/
theorem submit_blank_is_noop (st : WidgetState) (audioAnswers : Bool)
    (input : String) (h : jsTrim input = "") :
    stepWidget st (WidgetEvent.submit audioAnswers input) = st := by
  simp [stepWidget, h]

/-- Witness for `submit_blank_is_noop` at the whitespace-only input
`"  "`. -/
theorem submit_blank_is_noop_witness :
    stepWidget ⟨"conv1", [], "", []⟩ (WidgetEvent.submit false "  ") =
      ⟨"conv1", [], "", []⟩ :=
  submit_blank_is_noop ⟨"conv1", [], "", []⟩ false "  " (by decide)

/-- **C9** With `audioAnswers` enabled, an assistant message whose text
does not match the `"audio_url": "<url>"` pattern is silently dropped:
`addMessage` appends nothing. -/
theorem audio_mode_drops_plain_assistant_text
    (msgs : List (Sender × Rendered)) (text : String) (isHtml : Bool)
    (h : extractAudioUrl text = none) :
    addMessage true msgs text Sender.assistant isHtml = msgs := by
  simp [addMessage, h]

/-- Witness for `audio_mode_drops_plain_assistant_text`: a plain text
reply in audio mode is dropped. -/
theorem audio_mode_drops_plain_assistant_text_witness :
    addMessage true [] "Hello, how can I help you?" Sender.assistant false =
      [] :=
  audio_mode_drops_plain_assistant_text [] "Hello, how can I help you?" false
    (by decide)

/-- The concrete C2 scenario: a send is dispatched in `conv1`, the
new-conversation action switches to `conv2` and clears the history, then
the stale response arrives. -/
def staleTrace : WidgetState :=
  stepWidget
    (stepWidget
      (stepWidget ⟨"conv1", [], "ctx", []⟩ (WidgetEvent.submit false "hi"))
      (WidgetEvent.newConversation (some "conv2")))
    (WidgetEvent.respond false ("conv1", "hi") "stale reply" false)

/-- **C2 is violated by the code (code bug)** Neither `onSend` nor
`Chat.sendMessage` compares the conversation id bound at dispatch time
with the active one before appending: in the scenario above the stale
response dispatched under `conv1` is appended to the cleared history of
`conv2`, although the identities differ.  The spec requires it to be
discarded. -/
theorem stale_response_appended_to_new_conversation :
    staleTrace.conversationId = "conv2" ∧
    ("conv1" : String) ≠ "conv2" ∧
    staleTrace.messages =
      [(Sender.assistant,
        Rendered.formattedText (formatText (sanitizeText "stale reply")))] := by
  refine ⟨?_, by decide, ?_⟩
  · rfl
  · show (stepWidget _ _).messages = _
    simp [staleTrace, stepWidget, addMessage, extractAudioUrl, jsTrim]

/-! ## Claim C7: plain-text formatting of bare URLs -/

/-- `p` occurs as a contiguous substring of `l`. -/
def hasSubstr (p : List Char) : List Char → Bool
  | [] => (dropPrefixChars p []).isSome
  | c :: rest => (dropPrefixChars p (c :: rest)).isSome || hasSubstr p rest

theorem dropPrefixChars_append {p l r : List Char}
    (h : dropPrefixChars p l = some r) : l = p ++ r := by
  induction p generalizing l with
  | nil => simp [dropPrefixChars] at h; simp [h]
  | cons x xs ih =>
      cases l with
      | nil => simp [dropPrefixChars] at h
      | cons c cs =>
          simp only [dropPrefixChars] at h
          split at h
          · have := ih h
            subst this
            simp_all
          · exact absurd h (by simp)

theorem splitScheme_append {l s r : List Char}
    (h : splitScheme l = some (s, r)) : l = s ++ r := by
  unfold splitScheme at h
  cases h8 : dropPrefixChars "https://".toList l with
  | some r8 =>
      rw [h8] at h
      simp only [Option.some.injEq, Prod.mk.injEq] at h
      obtain ⟨hs, hr⟩ := h
      subst hs; subst hr
      exact dropPrefixChars_append h8
  | none =>
      rw [h8] at h
      cases h7 : dropPrefixChars "http://".toList l with
      | some r7 =>
          rw [h7] at h
          simp only [Option.some.injEq, Prod.mk.injEq] at h
          obtain ⟨hs, hr⟩ := h
          subst hs; subst hr
          exact dropPrefixChars_append h7
      | none => rw [h7] at h; simp at h

/-- Escaping is the identity on text without markup-significant
characters. -/
theorem sanitize_id_of_plain {l : List Char}
    (h : ∀ c ∈ l, c ≠ '&' ∧ c ≠ '<' ∧ c ≠ '>') :
    (l.map escapeHtmlChar).flatten = l := by
  induction l with
  | nil => simp
  | cons c rest ih =>
      have hc := h c (by simp)
      simp only [List.map_cons, List.flatten_cons]
      rw [ih fun x hx => h x (by simp [hx])]
      simp [escapeHtmlChar, hc.1, hc.2.1, hc.2.2]

/-- No raw `<` or `>` survives `sanitizeText`: each source character maps
to an entity or to itself, and only characters other than `&<>` map to
themselves. -/
theorem sanitizeText_no_angle (s : String) :
    ∀ c ∈ (sanitizeText s).toList, c ≠ '<' ∧ c ≠ '>' := by
  intro c hc
  have : c ∈ (s.toList.map escapeHtmlChar).flatten := hc
  rw [List.mem_flatten] at this
  obtain ⟨chunk, hchunk, hcin⟩ := this
  rw [List.mem_map] at hchunk
  obtain ⟨c0, _, hmap⟩ := hchunk
  subst hmap
  unfold escapeHtmlChar at hcin
  split at hcin
  · fin_cases hcin <;> exact ⟨by decide, by decide⟩
  · split at hcin
    · fin_cases hcin <;> exact ⟨by decide, by decide⟩
    · split at hcin
      · fin_cases hcin <;> exact ⟨by decide, by decide⟩
      · simp only [List.mem_singleton] at hcin
        subst hcin
        rename_i h1 h2 h3
        exact ⟨h2, h3⟩

/-- Linkification of a single URL token: one anchor, nothing else. -/
theorem linkify_single_token {url scheme afterScheme : List Char}
    (hscheme : splitScheme url = some (scheme, afterScheme))
    (hne : afterScheme ≠ [])
    (hws : ∀ c ∈ url, isJsWhitespace c = false) :
    linkify url = anchorFor url := by
  have happ := splitScheme_append hscheme
  cases hurl : url with
  | nil =>
      subst hurl
      simp [splitScheme, dropPrefixChars] at hscheme
  | cons c rest =>
      subst hurl
      rw [linkify]
      split
      · rename_i scheme' afterScheme' heq
        rw [hscheme] at heq
        simp only [Option.some.injEq, Prod.mk.injEq] at heq
        obtain ⟨hs, ha⟩ := heq
        subst hs; subst ha
        have hwsAfter : ∀ x ∈ afterScheme, (!isJsWhitespace x) = true := by
          intro x hx
          have : x ∈ c :: rest := by
            rw [happ]; exact List.mem_append_right _ hx
          simp [hws x this]
        have htake : afterScheme.takeWhile (fun x => !isJsWhitespace x) =
            afterScheme := List.takeWhile_eq_self_iff.mpr hwsAfter
        have hdrop : afterScheme.dropWhile (fun x => !isJsWhitespace x) = [] :=
          List.dropWhile_eq_nil_iff.mpr hwsAfter
        rw [htake, hdrop]
        rw [if_neg hne]
        rw [linkify]
        rw [← happ]
        simp
      · rename_i heq
        rw [hscheme] at heq
        simp at heq

/-- The bold pass is the identity on star-free text. -/
theorem boldify_id_of_no_star {l : List Char} (h : ∀ c ∈ l, c ≠ '*') :
    boldify l = l := by
  induction l using boldify.induct with
  | case1 => simp [boldify]
  | case2 c => simp [boldify]
  | case3 c c2 rest hcond content afterClose hf hnl =>
      simp only [Bool.and_eq_true, decide_eq_true_eq] at hcond
      exact absurd hcond.1 (h c (by simp))
  | case4 c c2 rest hcond content afterClose hf hnl ih =>
      simp only [Bool.and_eq_true, decide_eq_true_eq] at hcond
      exact absurd hcond.1 (h c (by simp))
  | case5 c c2 rest hcond hf ih =>
      simp only [Bool.and_eq_true, decide_eq_true_eq] at hcond
      exact absurd hcond.1 (h c (by simp))
  | case6 c c2 rest hcond ih =>
      rw [boldify]
      rw [if_neg (by simpa using hcond)]
      rw [ih fun x hx => h x (by simp at hx ⊢; tauto)]

/-- The list-item pass away from the string start is the identity on
newline-free text. -/
theorem listItems_false_id {l : List Char} (h : ∀ c ∈ l, c ≠ '\n') :
    listItems false l = l := by
  induction l with
  | nil => simp [listItems]
  | cons c rest ih =>
      have hih := ih fun x hx => h x (by simp [hx])
      have hc : c ≠ '\n' := h c (by simp)
      cases rest with
      | nil =>
          rw [listItems.eq_3 false c [] (by intro a ha; simp at ha)]
          simp [hc, listItems]
      | cons c2 rest2 =>
          by_cases hdash : c2 = '-'
          · subst hdash
            rw [listItems.eq_2]
            rw [if_neg (by simp)]
            rw [if_neg (by simpa using hc)]
            rw [hih]
          · rw [listItems.eq_3 false c (c2 :: rest2)
              (by intro a ha; simp at ha; exact hdash ha.1)]
            rw [if_neg (by simp)]
            rw [if_neg (by simpa using hc)]
            rw [hih]

/-- The list-item pass at the string start steps over a head that is
neither a dash nor a newline. -/
theorem listItems_true_id {c : Char} {rest : List Char}
    (hc : c ≠ '-') (hnl : ∀ x ∈ c :: rest, x ≠ '\n') :
    listItems true (c :: rest) = c :: rest := by
  have htail : listItems false rest = rest :=
    listItems_false_id fun x hx => hnl x (by simp [hx])
  have hcnl : c ≠ '\n' := hnl c (by simp)
  cases rest with
  | nil =>
      rw [listItems.eq_3 true c [] (by intro a ha; simp at ha)]
      rw [if_neg (by simpa using hc)]
      rw [if_neg (by simpa using hcnl)]
      rw [htail]
  | cons c2 rest2 =>
      by_cases hdash : c2 = '-'
      · subst hdash
        rw [listItems.eq_2]
        rw [if_neg (by simpa using hc)]
        rw [if_neg (by simpa using hcnl)]
        rw [htail]
      · rw [listItems.eq_3 true c (c2 :: rest2)
          (by intro a ha; simp at ha; exact hdash ha.1)]
        rw [if_neg (by simpa using hc)]
        rw [if_neg (by simpa using hcnl)]
        rw [htail]

/-- `<li>` is not a prefix of a list whose first two characters are not
`<`, `l`. -/
theorem dropPrefix_li_none {l : List Char}
    (h : ∀ c c2 rest, l = c :: c2 :: rest → ¬(c = '<' ∧ c2 = 'l')) :
    dropPrefixChars "<li>".toList l = none := by
  cases l with
  | nil => rfl
  | cons c rest =>
      cases rest with
      | nil =>
          show dropPrefixChars ('<' :: 'l' :: 'i' :: '>' :: []) [c] = none
          rw [dropPrefixChars]
          split
          · rfl
          · rfl
      | cons c2 rest2 =>
          have hn := h c c2 rest2 rfl
          show dropPrefixChars ('<' :: 'l' :: 'i' :: '>' :: [])
            (c :: c2 :: rest2) = none
          rw [dropPrefixChars]
          split
          · rename_i hc
            rw [dropPrefixChars]
            rw [if_neg (by tauto)]
          · rfl

/-- `liRun` fails wherever `<li>` is not a prefix. -/
theorem liRun_none {l : List Char}
    (h : ∀ c c2 rest, l = c :: c2 :: rest → ¬(c = '<' ∧ c2 = 'l')) :
    liRun l = none := by
  rw [liRun]
  split
  · rfl
  · rename_i afterOpen hopen
    rw [dropPrefix_li_none h] at hopen
    exact absurd hopen (by simp)

/-- No position in `l` starts with `<l` (adjacent-pair property). -/
def NoLiOpen (l : List Char) : Prop :=
  List.Chain' (fun x y => ¬(x = '<' ∧ y = 'l')) l

/-- Boolean version of `NoLiOpen`, for evaluation on concrete markup. -/
def noLiOpenB : List Char → Bool
  | [] => true
  | [_] => true
  | c :: c2 :: rest => !(c = '<' && c2 = 'l') && noLiOpenB (c2 :: rest)

theorem chain'_of_noLiOpenB : ∀ {l : List Char}, noLiOpenB l = true →
    List.Chain' (fun x y => ¬(x = '<' ∧ y = 'l')) l := by
  intro l
  induction l with
  | nil => exact fun _ => List.chain'_nil
  | cons c rest ih =>
      cases rest with
      | nil => exact fun _ => List.chain'_singleton c
      | cons c2 rest2 =>
          intro h
          rw [noLiOpenB] at h
          simp only [Bool.and_eq_true, Bool.not_eq_true', Bool.and_eq_false_iff,
            decide_eq_false_iff_not] at h
          refine List.chain'_cons.mpr ⟨?_, ih h.2⟩
          intro hcon
          rcases h.1 with h1 | h1 <;> simp [hcon.1, hcon.2] at h1

theorem noLiOpen_of_no_lt {l : List Char} (h : ∀ c ∈ l, c ≠ '<') :
    NoLiOpen l := by
  induction l with
  | nil => exact List.chain'_nil
  | cons c rest ih =>
      cases rest with
      | nil => exact List.chain'_singleton c
      | cons c2 rest2 =>
          exact List.chain'_cons.mpr
            ⟨fun hc => absurd hc.1 (h c (by simp)),
             ih fun x hx => h x (by simp [hx])⟩

/-- The `<ul>`-wrapping pass is the identity when no position starts with
`<l`. -/
theorem wrapLiRunsF_id : ∀ (fuel : Nat) (l : List Char), NoLiOpen l →
    wrapLiRunsF fuel l = l := by
  intro fuel
  induction fuel with
  | zero => intro l _; rfl
  | succ fuel ih =>
      intro l hl
      cases l with
      | nil => rfl
      | cons c rest =>
          have hnone : liRun (c :: rest) = none := by
            apply liRun_none
            intro x x2 rest2 heq
            cases heq
            exact (List.chain'_cons.mp hl).1
          rw [wrapLiRunsF, hnone]
          rw [ih rest hl.tail]

theorem wrapLiRuns_id {l : List Char} (h : NoLiOpen l) :
    wrapLiRuns l = l :=
  wrapLiRunsF_id (l.length + 1) l h

set_option maxRecDepth 100000 in
set_option maxHeartbeats 1000000 in
/-- **C7 counterexample** The claim quantifies over every plain-text
input containing a bare `http(s)://` token.  For the token
`http://x**y**z` (a single URL token for the regex: scheme plus non-space
characters) the bold pass rewrites the `**…**` spans inside the
already-emitted anchor markup, so the formatted output contains no anchor
wrapping that URL at all. -/
theorem formatText_url_with_stars_loses_anchor :
    hasSubstr (anchorFor "http://x**y**z".toList)
        (formatText (sanitizeText "http://x**y**z")).toList = false ∧
      splitScheme "http://x**y**z".toList =
        some ("http://".toList, "x**y**z".toList) ∧
      (∀ c ∈ "http://x**y**z".toList, isJsWhitespace c = false) := by
  refine ⟨?_, by decide, by decide⟩
  have h : formatText (sanitizeText "http://x**y**z") =
      "<a href=\"http://x<span class=\"ia-title\">y</span>z\" target=\"_blank\" rel=\"noopener noreferrer\">http://x<span class=\"ia-title\">y</span>z</a>" := by
    simp [formatText, sanitizeText, escapeHtmlChar, linkify, splitScheme,
      dropPrefixChars, isJsWhitespace, anchorFor, anchorPre, anchorMid,
      anchorPost, boldify, findStarStar, spanPre, spanPost, listItems,
      liMatchAfterDash, wrapLiRuns, wrapLiRunsF, liRun, splitAtLiClose,
      liOpen, liClose, stripTrailingWs]
  rw [h]
  decide

/-- **C7 (amended)** After escaping, no raw `<` or `>` from the original
text remains anywhere (first conjunct, for every input).  And for every
input consisting of a single bare URL token whose characters avoid the
markup- and formatting-significant characters `&`, `<`, `>`, `*`, the
formatted output is exactly one anchor wrapping that URL, opening in a new
context with no back-reference (`target="_blank" rel="noopener
noreferrer"`). -/
theorem formatText_single_url_token (url scheme afterScheme : List Char)
    (hscheme : splitScheme url = some (scheme, afterScheme))
    (hne : afterScheme ≠ [])
    (hws : ∀ c ∈ url, isJsWhitespace c = false)
    (hplain : ∀ c ∈ url, c ≠ '&' ∧ c ≠ '<' ∧ c ≠ '>' ∧ c ≠ '*') :
    formatText (sanitizeText ⟨url⟩) = ⟨anchorFor url⟩ ∧
    (∀ s : String, ∀ c ∈ (sanitizeText s).toList, c ≠ '<' ∧ c ≠ '>') := by
  refine ⟨?_, sanitizeText_no_angle⟩
  have hsan : sanitizeText ⟨url⟩ = ⟨url⟩ := by
    unfold sanitizeText
    show String.mk ((url.map escapeHtmlChar).flatten) = String.mk url
    rw [sanitize_id_of_plain fun c hc =>
      ⟨(hplain c hc).1, (hplain c hc).2.1, (hplain c hc).2.2.1⟩]
  rw [hsan]
  unfold formatText
  show String.mk (wrapLiRuns (listItems true (boldify (linkify url)))) = _
  rw [linkify_single_token hscheme hne hws]
  -- facts about the characters of the anchor markup and of the url
  have hurlNoNl : ∀ c ∈ url, c ≠ '\n' := by
    intro c hc heq
    subst heq
    exact absurd (hws '\n' hc) (by decide)
  have hurlNoLt : ∀ c ∈ url, c ≠ '<' := fun c hc => (hplain c hc).2.1
  have hurlNoStar : ∀ c ∈ url, c ≠ '*' := fun c hc => (hplain c hc).2.2.2
  have hAstar : ∀ x ∈ anchorPre, x ≠ '*' := by decide
  have hMstar : ∀ x ∈ anchorMid, x ≠ '*' := by decide
  have hPstar : ∀ x ∈ anchorPost, x ≠ '*' := by decide
  have hAnl : ∀ x ∈ anchorPre, x ≠ '\n' := by decide
  have hMnl : ∀ x ∈ anchorMid, x ≠ '\n' := by decide
  have hPnl : ∀ x ∈ anchorPost, x ≠ '\n' := by decide
  have hstar : ∀ c ∈ anchorFor url, c ≠ '*' := by
    intro c hc
    simp only [anchorFor, List.mem_append] at hc
    rcases hc with (((h | h) | h) | h) | h
    · exact hAstar c h
    · exact hurlNoStar c h
    · exact hMstar c h
    · exact hurlNoStar c h
    · exact hPstar c h
  have hnl : ∀ c ∈ anchorFor url, c ≠ '\n' := by
    intro c hc
    simp only [anchorFor, List.mem_append] at hc
    rcases hc with (((h | h) | h) | h) | h
    · exact hAnl c h
    · exact hurlNoNl c h
    · exact hMnl c h
    · exact hurlNoNl c h
    · exact hPnl c h
  rw [boldify_id_of_no_star hstar]
  have hanch : anchorFor url =
      '<' :: ("a href=\"".toList ++ url ++ anchorMid ++ url ++ anchorPost) := by
    simp [anchorFor, anchorPre]
  have hlist : listItems true (anchorFor url) = anchorFor url := by
    rw [hanch]
    refine listItems_true_id (by decide) ?_
    rw [← hanch]
    exact hnl
  rw [hlist]
  have hnoli : NoLiOpen (anchorFor url) := by
    unfold NoLiOpen anchorFor
    simp only [List.append_assoc]
    have hurlChain : List.Chain' (fun x y => ¬(x = '<' ∧ y = 'l')) url :=
      noLiOpen_of_no_lt hurlNoLt
    have hlastUrl : ∀ x ∈ url.getLast?, x ≠ '<' := by
      intro x hx
      obtain ⟨hne', heq⟩ := List.mem_getLast?_eq_getLast hx
      subst heq
      exact hurlNoLt _ (List.getLast_mem hne')
    rw [List.chain'_append]
    refine ⟨chain'_of_noLiOpenB (by decide), ?_, ?_⟩
    · rw [List.chain'_append]
      refine ⟨hurlChain, ?_, ?_⟩
      · rw [List.chain'_append]
        refine ⟨chain'_of_noLiOpenB (by decide), ?_, ?_⟩
        · rw [List.chain'_append]
          refine ⟨hurlChain, chain'_of_noLiOpenB (by decide), ?_⟩
          · intro x hx y _
            exact fun hcon => absurd hcon.1 (hlastUrl x hx)
        · intro x hx y _
          have : anchorMid.getLast? = some '>' := by decide
          rw [this] at hx
          simp only [Option.mem_def, Option.some.injEq] at hx
          subst hx
          exact fun hcon => by simp at hcon
      · intro x hx y _
        exact fun hcon => absurd hcon.1 (hlastUrl x hx)
    · intro x hx y _
      have : anchorPre.getLast? = some '"' := by decide
      rw [this] at hx
      simp only [Option.mem_def, Option.some.injEq] at hx
      subst hx
      exact fun hcon => by simp at hcon
  rw [wrapLiRuns_id hnoli]

/-- Witness for `formatText_single_url_token` at the concrete single-token
input `http://example.org/docs`. -/
theorem formatText_single_url_token_witness :
    formatText (sanitizeText "http://example.org/docs") =
      ⟨anchorFor "http://example.org/docs".toList⟩ :=
  (formatText_single_url_token "http://example.org/docs".toList
    "http://".toList "example.org/docs".toList (by decide) (by decide)
    (by decide) (by decide)).1

end AIAssistant
